import Mathlib

/-!
# Workflow/Job orchestration engine: a shallow embedding

This file embeds the Workflow Orchestrator of the repository (the
`WorkflowOrchestrator` class: `createWorkflow`, `queueWorkflow`,
`getExecutionPlan`, `processNextJob`, `processJob`, `executeNode`,
`completeWorkflow`, `getWorkflowStatus`) and proves the stated properties
of its state machine.

Modelling choices, all translated from the source:
* The relational store (the `workflows` and `jobs` tables) is a `DB` record
  holding the two row lists, the auto-increment counters, a logical clock
  standing for `CURRENT_TIMESTAMP`, and an instrumentation `trace` recording
  every status value written to a row, in write order.
* SQL statements become list operations: `INSERT` appends a row,
  `UPDATE ... WHERE id = $1` maps over the list touching the matching rows,
  `SELECT ... WHERE id = $1` is `List.find?`, and the
  `WHERE status = 'pending' ORDER BY priority ASC LIMIT 1` query of
  `processNextJob` is a minimum-priority selection over the pending rows.
* The step-execution unit is a parameter `exec` of type `ExecOracle`
  (step name, workflow id, current clock → result or error), matching the
  spec's pluggable `execute(stepName, workflowId) -> result, error` seam;
  the shipped placeholder `executeNode` is one such oracle.
* `plans[workflowType]` is a bracket lookup on an object literal, so it
  traverses the prototype chain: a label naming an `Object.prototype`
  property (`constructor`, `toString`, `__proto__`, …) yields the truthy
  inherited value and `|| plans['test']` never falls back on it. `PlanVal`
  models the possible results; the insertion loop reads the value's
  `.length` (array length, function arity, or `undefined` → zero
  iterations) and indexes it (`undefined` off an array, making the `INSERT`
  violate the `jobs.node_name NOT NULL` constraint of the schema and
  throw).
* The Bull work queue's `add`/consumer pair is collapsed into a direct call:
  `processNextJob` hands the dispatch message straight to `processJob`.
  For a single workflow this is faithful, because the source dispatches
  job k+1 only from the tail of `processJob` after job k terminated, so at
  most one message per workflow is ever in flight.
* The recursion `processJob → processNextJob → processJob …` crosses the
  queue boundary in the source, so an error raised by a later job is *not*
  caught by an earlier job's try/catch; accordingly the model's `processJob`
  catches only the failure of its own `exec` call. The `err` field of an
  `Outcome` is the error the source re-raises to the queue's failure channel.
* The recursion is given a `fuel` budget (the number of dispatches the queue
  may still perform); every theorem about a full run assumes fuel at least
  the number of pending jobs, which the source's finite job sets guarantee.
-/

namespace Empire

/-- Job row statuses (the `status` column of the `jobs` table). -/
inductive JStatus : Type where
  | pending | running | completed | failed
deriving DecidableEq

/-- Workflow row statuses. The schema admits `running` (the spec lists it as
an implicit state); which of these values the code actually writes is settled
by the theorems below. -/
inductive WStatus : Type where
  | pending | queued | running | completed | failed
deriving DecidableEq

/-- The result object built by the placeholder `executeNode`. -/
structure NodeResult : Type where
  nodeName : String
  status : String
  timestamp : Nat
deriving DecidableEq

/-- A row of the `jobs` table. -/
structure Job : Type where
  id : Nat
  workflow_id : Nat
  node_name : String
  status : JStatus
  priority : Nat
  created_at : Nat
  started_at : Option Nat
  completed_at : Option Nat
  result : Option NodeResult
  error : Option String
deriving DecidableEq

/-- A row of the `workflows` table. `metadata` holds the serialized
`{ type: workflowType }` payload, which in the source is determined by the
type label alone. -/
structure Workflow : Type where
  id : Nat
  name : String
  status : WStatus
  property_id : Nat
  metadata : String
  created_at : Nat
  updated_at : Nat
  completed_at : Option Nat
deriving DecidableEq

/-- One status value written to a row: the instrumentation the theorems
observe. `jobStatus wf i p s` records that the job row `i` (of workflow `wf`,
priority `p`) was stored with status `s`; `wfStatus wf s` records that the
workflow row `wf` was stored with status `s`. -/
inductive Event : Type where
  | jobStatus (workflowId jobId priority : Nat) (status : JStatus)
  | wfStatus (workflowId : Nat) (status : WStatus)
deriving DecidableEq

/-- The durable store plus the write trace. `clock` models
`CURRENT_TIMESTAMP`: it ticks at every row write. -/
structure DB : Type where
  workflows : List Workflow
  jobs : List Job
  nextWorkflowId : Nat
  nextJobId : Nat
  clock : Nat
  trace : List Event
deriving DecidableEq

def emptyDB : DB := ⟨[], [], 0, 0, 0, []⟩

def pushEvent (e : Event) (db : DB) : DB :=
  { db with trace := db.trace ++ [e] }

/-- `UPDATE jobs SET ... WHERE id = $1`. -/
def updateJob (jobId : Nat) (f : Job → Job) (db : DB) : DB :=
  { db with
      jobs := db.jobs.map fun j => if j.id = jobId then f j else j
      clock := db.clock + 1 }

/-- `UPDATE workflows SET ... WHERE id = $1`. -/
def updateWorkflow (wfId : Nat) (f : Workflow → Workflow) (db : DB) : DB :=
  { db with
      workflows := db.workflows.map fun w => if w.id = wfId then f w else w
      clock := db.clock + 1 }

/-- `SELECT * FROM workflows WHERE id = $1`. -/
def selectWorkflow (wfId : Nat) (db : DB) : Option Workflow :=
  db.workflows.find? fun w => w.id = wfId

/-- The jobs of one workflow (`SELECT * FROM jobs WHERE workflow_id = $1`). -/
def jobsOf (wfId : Nat) (db : DB) : List Job :=
  db.jobs.filter fun j => j.workflow_id = wfId

/-- The pending jobs of one workflow
(`WHERE workflow_id = $1 AND status = 'pending'`). -/
def pendingJobs (wfId : Nat) (db : DB) : List Job :=
  db.jobs.filter fun j => j.workflow_id = wfId ∧ j.status = JStatus.pending

/-- `ORDER BY priority ASC LIMIT 1`: the first row of minimal priority. -/
def selectMin : List Job → Option Job
  | [] => none
  | j :: rest =>
    match selectMin rest with
    | none => some j
    | some m => if j.priority ≤ m.priority then some j else some m

/-- The query of `processNextJob`: lowest-priority pending job of the
workflow. -/
def selectNextPending (wfId : Nat) (db : DB) : Option Job :=
  selectMin (pendingJobs wfId db)

/-- A value `plans[workflowType]` can evaluate to. The `plans` table is a
plain object literal, so the bracket lookup traverses the prototype chain:
the literal's own keys yield the plan arrays (`arr`), while a label naming
an `Object.prototype` property yields the inherited value — a function,
observable downstream only through its arity (what `.length` reads), or the
prototype object itself for `__proto__`, whose `.length` is `undefined`, so
the insertion loop's bound `i < undefined` is false. -/
inductive PlanVal : Type where
  | arr (steps : List String)
  | protoFun (arity : Nat)
  | protoObj
deriving DecidableEq

/-- The `Object.prototype` properties a string-keyed bracket lookup on an
object literal reaches when the key is not an own key, each function with
its arity. -/
def protoProps : List (String × PlanVal) :=
  [("constructor", PlanVal.protoFun 1),
   ("hasOwnProperty", PlanVal.protoFun 1),
   ("isPrototypeOf", PlanVal.protoFun 1),
   ("propertyIsEnumerable", PlanVal.protoFun 1),
   ("toLocaleString", PlanVal.protoFun 0),
   ("toString", PlanVal.protoFun 0),
   ("valueOf", PlanVal.protoFun 0),
   ("__defineGetter__", PlanVal.protoFun 2),
   ("__defineSetter__", PlanVal.protoFun 2),
   ("__lookupGetter__", PlanVal.protoFun 1),
   ("__lookupSetter__", PlanVal.protoFun 1),
   ("__proto__", PlanVal.protoObj)]

/-- `getExecutionPlan(workflowType)`: `plans[workflowType] || plans['test']`.
The literal's own keys (`full_listing`, `test`) win; otherwise the lookup
falls through to the prototype chain, and an inherited property is a truthy
value, so `||` does **not** fall back on it; only a genuinely absent key
(`undefined`, falsy) falls back to the `test` plan. -/
def getExecutionPlan (workflowType : String) : PlanVal :=
  if workflowType = "full_listing" then
    PlanVal.arr
      ["mls_data_ingester", "property_photos_collector",
       "competitive_analysis_engine", "master_content_generator",
       "facebook_post_generator", "instagram_caption_generator",
       "facebook_publisher", "instagram_publisher", "engagement_tracker",
       "lead_capture_monitor"]
  else if workflowType = "test" then PlanVal.arr ["test_node"]
  else
    match protoProps.find? (fun p => p.1 = workflowType) with
    | some p => p.2
    | none => PlanVal.arr ["test_node"]

/-- `executionPlan.length` as the loop bound of `queueWorkflow` reads it:
array length, function arity, or `undefined` for the prototype object
(zero iterations). -/
def planLen : PlanVal → Nat
  | PlanVal.arr steps => steps.length
  | PlanVal.protoFun arity => arity
  | PlanVal.protoObj => 0

/-- `executionPlan[i]`: a step name for an array index in range, otherwise
`undefined` (`none` — a function or the prototype object has no such index). -/
def planIdx : PlanVal → Nat → Option String
  | PlanVal.arr steps, i => steps.get? i
  | PlanVal.protoFun _, _ => none
  | PlanVal.protoObj, _ => none

/-- The error the store raises when the loop reads `undefined` and the
`INSERT` writes null into `jobs.node_name`, a `NOT NULL` column. -/
def notNullMsg : String :=
  "null value in column node_name violates not-null constraint"

/-- The step-execution seam: (step name, workflow id, clock) to a result or
a raised error message. -/
def ExecOracle : Type := String → Nat → Nat → Except String NodeResult

/-- `executeNode(nodeName, workflowId)`: the shipped placeholder. It never
throws and always returns `{ nodeName, status: 'success', timestamp }`. -/
def executeNode : ExecOracle :=
  fun nodeName _workflowId now =>
    Except.ok { nodeName := nodeName, status := "success", timestamp := now }

/-- `completeWorkflow(workflowId)`: `UPDATE workflows SET status =
'completed', completed_at = CURRENT_TIMESTAMP, updated_at =
CURRENT_TIMESTAMP WHERE id = $1`. (The in-memory `activeWorkflows` cache
deletion has no observable effect on the store and is not modelled.) -/
def completeWorkflow (wfId : Nat) (db : DB) : DB :=
  pushEvent (Event.wfStatus wfId WStatus.completed)
    (updateWorkflow wfId
      (fun w => { w with
          status := WStatus.completed
          completed_at := some db.clock
          updated_at := db.clock }) db)

/-- The Bull message `{ jobId, workflowId, nodeName }`. -/
structure JobMsg : Type where
  jobId : Nat
  workflowId : Nat
  nodeName : String
deriving DecidableEq

/-- The store state an orchestrator call leaves behind, together with the
error (if any) that the call raises — for `processJob`, the error re-raised
to the work queue's failure channel. -/
structure Outcome : Type where
  db : DB
  err : Option String
deriving DecidableEq

/-- The priority column of the job row a message points at (instrumentation
for the trace; `0` if the row does not exist). -/
def priorityOf (db : DB) (jobId : Nat) : Nat :=
  match db.jobs.find? (fun j => j.id = jobId) with
  | some j => j.priority
  | none => 0

/-- The body of `processJob(bullJob)` with the tail call `processNextJob`
abstracted as the continuation `next` (in the source that call re-enters the
queue). Marks the job `running`, runs the step, and on success marks it
`completed` and advances; on failure marks the job and its workflow
`failed` and re-raises the error. -/
def processJobCore (next : DB → Outcome) (exec : ExecOracle)
    (msg : JobMsg) (db : DB) : Outcome :=
  let p := priorityOf db msg.jobId
  let db1 := pushEvent (Event.jobStatus msg.workflowId msg.jobId p JStatus.running)
    (updateJob msg.jobId
      (fun j => { j with status := JStatus.running, started_at := some db.clock }) db)
  match exec msg.nodeName msg.workflowId db1.clock with
  | Except.ok r =>
    let db2 := pushEvent (Event.jobStatus msg.workflowId msg.jobId p JStatus.completed)
      (updateJob msg.jobId
        (fun j => { j with
            status := JStatus.completed
            completed_at := some db1.clock
            result := some r }) db1)
    next db2
  | Except.error m =>
    let db2 := pushEvent (Event.jobStatus msg.workflowId msg.jobId p JStatus.failed)
      (updateJob msg.jobId
        (fun j => { j with
            status := JStatus.failed
            completed_at := some db1.clock
            error := some m }) db1)
    let db3 := pushEvent (Event.wfStatus msg.workflowId WStatus.failed)
      (updateWorkflow msg.workflowId
        (fun w => { w with status := WStatus.failed, updated_at := db2.clock }) db2)
    ⟨db3, some m⟩

/-- `processNextJob(workflowId)`: select the lowest-priority pending job; if
none, complete the workflow; otherwise dispatch `{jobId, workflowId,
nodeName}` to the queue, whose consumer runs `processJob`. `fuel` bounds how
many further dispatches the queue performs. -/
def processNextJob (exec : ExecOracle) : Nat → Nat → DB → Outcome
  | 0, wfId, db =>
    match selectNextPending wfId db with
    | none => ⟨completeWorkflow wfId db, none⟩
    | some _ => ⟨db, some "dispatch budget exhausted"⟩
  | fuel + 1, wfId, db =>
    match selectNextPending wfId db with
    | none => ⟨completeWorkflow wfId db, none⟩
    | some job =>
      processJobCore (fun db2 => processNextJob exec fuel wfId db2) exec
        ⟨job.id, wfId, job.node_name⟩ db

/-- `processJob(bullJob)` as the queue consumer invokes it. -/
def processJob (exec : ExecOracle) (fuel : Nat) (msg : JobMsg) (db : DB) :
    Outcome :=
  processJobCore (fun db2 => processNextJob exec fuel msg.workflowId db2)
    exec msg db

/-- One `INSERT INTO jobs (workflow_id, node_name, status, priority)` with
status `'pending'`. -/
def insertJob (wfId : Nat) (nodeName : String) (prio : Nat) (db : DB) : DB :=
  pushEvent (Event.jobStatus wfId db.nextJobId prio JStatus.pending)
    { db with
        jobs := db.jobs ++
          [{ id := db.nextJobId
             workflow_id := wfId
             node_name := nodeName
             status := JStatus.pending
             priority := prio
             created_at := db.clock
             started_at := none
             completed_at := none
             result := none
             error := none }]
        nextJobId := db.nextJobId + 1
        clock := db.clock + 1 }

/-- The insertion loop of `queueWorkflow` specialised to an array plan: one
job per step, priority `i + 1` for index `i` (`basePrio` starts at 1). The
general loop `insertLoop` below agrees with this function on array plans
(lemma `insertLoop_arr`). -/
def insertJobs (wfId : Nat) (plan : List String) (basePrio : Nat) (db : DB) :
    DB :=
  match plan with
  | [] => db
  | n :: rest => insertJobs wfId rest (basePrio + 1) (insertJob wfId n basePrio db)

/-- The `for (let i = 0; i < executionPlan.length; i++)` insertion loop of
`queueWorkflow`: `n` iterations remain, `i` is the loop counter. Each
iteration inserts one pending job with `priority = i + 1`; when
`executionPlan[i]` is `undefined` (a non-array plan value), the `INSERT`
violates the `node_name NOT NULL` constraint and throws `notNullMsg`,
keeping the rows already inserted. -/
def insertLoop (wfId : Nat) (v : PlanVal) : Nat → Nat → DB → DB × Option String
  | 0, _, db => (db, none)
  | n + 1, i, db =>
    match planIdx v i with
    | none => (db, some notNullMsg)
    | some nodeName =>
      insertLoop wfId v n (i + 1) (insertJob wfId nodeName (i + 1) db)

/-- `UPDATE workflows SET status = 'queued', updated_at = CURRENT_TIMESTAMP
WHERE id = $2`. -/
def setQueued (wfId : Nat) (db : DB) : DB :=
  pushEvent (Event.wfStatus wfId WStatus.queued)
    (updateWorkflow wfId
      (fun w => { w with status := WStatus.queued, updated_at := db.clock }) db)

def notFoundMsg (wfId : Nat) : String :=
  "Workflow " ++ toString wfId ++ " not found"

/-- The body of `queueWorkflow` once the workflow row is loaded: the
insertion loop over the resolved plan, and — only when no insert threw —
the status update to `queued` and the first dispatch via `processNextJob`.
A loop error propagates (re-thrown by the catch block) with the store as
the partial inserts left it; the status update is never reached. -/
def queueWorkflowBody (exec : ExecOracle) (fuel wfId : Nat) (wf : Workflow)
    (db : DB) : Outcome :=
  match insertLoop wfId (getExecutionPlan wf.name)
      (planLen (getExecutionPlan wf.name)) 0 db with
  | (db1, none) => processNextJob exec fuel wfId (setQueued wfId db1)
  | (db1, some m) => ⟨db1, some m⟩

/-- `queueWorkflow(workflowId)`: load the workflow (NotFound if the row is
absent), then the insertion phase and the first dispatch. -/
def queueWorkflow (exec : ExecOracle) (fuel : Nat) (wfId : Nat) (db : DB) :
    Outcome :=
  match selectWorkflow wfId db with
  | none => ⟨db, some (notFoundMsg wfId)⟩
  | some wf => queueWorkflowBody exec fuel wfId wf db

/-- `INSERT INTO workflows (name, status, property_id, metadata) VALUES
($1, 'pending', $3, $4) RETURNING id`. -/
def insertWorkflow (name : String) (propertyId : Nat) (db : DB) : DB :=
  pushEvent (Event.wfStatus db.nextWorkflowId WStatus.pending)
    { db with
        workflows := db.workflows ++
          [{ id := db.nextWorkflowId
             name := name
             status := WStatus.pending
             property_id := propertyId
             metadata := name
             created_at := db.clock
             updated_at := db.clock
             completed_at := none }]
        nextWorkflowId := db.nextWorkflowId + 1
        clock := db.clock + 1 }

/-- `createWorkflow(propertyId, workflowType)`: insert the workflow row with
status `'pending'`, then `queueWorkflow` the returned id
(`db.nextWorkflowId`). -/
def createWorkflow (exec : ExecOracle) (fuel : Nat) (propertyId : Nat)
    (workflowType : String) (db : DB) : Outcome :=
  queueWorkflow exec fuel db.nextWorkflowId
    (insertWorkflow workflowType propertyId db)

/-- The priority order used by `ORDER BY priority ASC`. -/
def jobLE (a b : Job) : Prop := a.priority ≤ b.priority

instance : DecidableRel jobLE := fun a b => Nat.decLe a.priority b.priority

instance : IsTotal Job jobLE := ⟨fun a b => Nat.le_total a.priority b.priority⟩

instance : IsTrans Job jobLE := ⟨fun _ _ _ h h' => Nat.le_trans h h'⟩

/-- `getWorkflowStatus(workflowId)`: the workflow row and its jobs
`ORDER BY priority ASC`, or NotFound; the second component is the store
afterwards — the method only runs `SELECT`s, so it is returned unchanged. -/
def getWorkflowStatus (wfId : Nat) (db : DB) :
    Except String (Workflow × List Job) × DB :=
  match selectWorkflow wfId db with
  | none => (Except.error (notFoundMsg wfId), db)
  | some wf => (Except.ok (wf, (jobsOf wfId db).insertionSort jobLE), db)

/-! ## Store toolkit -/

@[simp] lemma workflows_pushEvent (e : Event) (db : DB) :
    (pushEvent e db).workflows = db.workflows := rfl

@[simp] lemma jobs_pushEvent (e : Event) (db : DB) :
    (pushEvent e db).jobs = db.jobs := rfl

@[simp] lemma trace_pushEvent (e : Event) (db : DB) :
    (pushEvent e db).trace = db.trace ++ [e] := rfl

@[simp] lemma clock_pushEvent (e : Event) (db : DB) :
    (pushEvent e db).clock = db.clock := rfl

@[simp] lemma workflows_updateJob (i : Nat) (f : Job → Job) (db : DB) :
    (updateJob i f db).workflows = db.workflows := rfl

@[simp] lemma jobs_updateJob (i : Nat) (f : Job → Job) (db : DB) :
    (updateJob i f db).jobs = db.jobs.map fun j => if j.id = i then f j else j :=
  rfl

@[simp] lemma trace_updateJob (i : Nat) (f : Job → Job) (db : DB) :
    (updateJob i f db).trace = db.trace := rfl

@[simp] lemma clock_updateJob (i : Nat) (f : Job → Job) (db : DB) :
    (updateJob i f db).clock = db.clock + 1 := rfl

@[simp] lemma workflows_updateWorkflow (i : Nat) (f : Workflow → Workflow)
    (db : DB) :
    (updateWorkflow i f db).workflows =
      db.workflows.map fun w => if w.id = i then f w else w := rfl

@[simp] lemma jobs_updateWorkflow (i : Nat) (f : Workflow → Workflow)
    (db : DB) : (updateWorkflow i f db).jobs = db.jobs := rfl

@[simp] lemma trace_updateWorkflow (i : Nat) (f : Workflow → Workflow)
    (db : DB) : (updateWorkflow i f db).trace = db.trace := rfl

@[simp] lemma clock_updateWorkflow (i : Nat) (f : Workflow → Workflow)
    (db : DB) : (updateWorkflow i f db).clock = db.clock + 1 := rfl

@[simp] lemma jobs_completeWorkflow (wf : Nat) (db : DB) :
    (completeWorkflow wf db).jobs = db.jobs := rfl

@[simp] lemma trace_completeWorkflow (wf : Nat) (db : DB) :
    (completeWorkflow wf db).trace =
      db.trace ++ [Event.wfStatus wf WStatus.completed] := rfl

lemma workflows_completeWorkflow (wf : Nat) (db : DB) :
    (completeWorkflow wf db).workflows =
      db.workflows.map fun w =>
        if w.id = wf then
          { w with
              status := WStatus.completed
              completed_at := some db.clock
              updated_at := db.clock }
        else w := rfl

/-! ## `selectMin` -/

lemma selectMin_eq_none {l : List Job} : selectMin l = none ↔ l = [] := by
  cases l with
  | nil => simp [selectMin]
  | cons j rest =>
    simp only [selectMin]
    cases selectMin rest with
    | none => simp
    | some m =>
      by_cases h : j.priority ≤ m.priority <;> simp [h]

lemma selectMin_mem : ∀ {l : List Job} {j : Job}, selectMin l = some j → j ∈ l := by
  intro l
  induction l with
  | nil => intro j h; simp [selectMin] at h
  | cons a rest ih =>
    intro j h
    simp only [selectMin] at h
    cases hm : selectMin rest with
    | none => rw [hm] at h; simp at h; simp [h]
    | some m =>
      rw [hm] at h
      by_cases hp : a.priority ≤ m.priority
      · simp [hp] at h; simp [h]
      · simp [hp] at h
        exact List.mem_cons_of_mem a (h ▸ ih hm)

lemma selectMin_le : ∀ {l : List Job} {j : Job}, selectMin l = some j →
    ∀ k ∈ l, j.priority ≤ k.priority := by
  intro l
  induction l with
  | nil => intro j h; simp [selectMin] at h
  | cons a rest ih =>
    intro j h
    simp only [selectMin] at h
    cases hm : selectMin rest with
    | none =>
      rw [hm] at h
      simp at h
      have : rest = [] := selectMin_eq_none.mp hm
      subst this
      simp [h]
    | some m =>
      rw [hm] at h
      by_cases hp : a.priority ≤ m.priority
      · simp [hp] at h
        subst h
        intro k hk
        rcases List.mem_cons.mp hk with rfl | hk
        · exact Nat.le_refl _
        · exact Nat.le_trans hp (ih hm k hk)
      · simp [hp] at h
        subst h
        intro k hk
        rcases List.mem_cons.mp hk with rfl | hk
        · exact Nat.le_of_lt (Nat.lt_of_not_le hp)
        · exact ih hm k hk

/-! ## List helpers -/

lemma find?_map_pres {α : Type} (g : α → α) (p : α → Bool)
    (hp : ∀ a, p (g a) = p a) :
    ∀ l : List α, (l.map g).find? p = (l.find? p).map g := by
  intro l
  induction l with
  | nil => simp
  | cons a rest ih =>
    by_cases h : p a
    · simp [List.find?_cons, hp, h]
    · simp only [List.map_cons, List.find?_cons, hp a, h]
      simpa [h] using ih

lemma find?_none_of {α : Type} (p : α → Bool) {l : List α}
    (h : ∀ a ∈ l, p a = false) (l2 : List α) :
    (l ++ l2).find? p = l2.find? p := by
  induction l with
  | nil => simp
  | cons a rest ih =>
    simp only [List.cons_append, List.find?_cons, h a (List.mem_cons_self a rest)]
    exact ih fun x hx => h x (List.mem_cons_of_mem a hx)

lemma length_filter_map_of {α : Type} (g : α → α) (p : α → Bool)
    (hp : ∀ x, p (g x) = p x) :
    ∀ l : List α, ((l.map g).filter p).length = (l.filter p).length := by
  intro l
  induction l with
  | nil => simp
  | cons a rest ih =>
    by_cases h : p a
    · simp [List.filter_cons, hp, h, ih]
    · simp only [List.map_cons, List.filter_cons, hp a]
      simp [h, ih]

lemma map_map_of {α β : Type} (g : α → α) (h : α → β)
    (hgh : ∀ x, h (g x) = h x) (l : List α) :
    (l.map g).map h = l.map h := by
  induction l with
  | nil => rfl
  | cons a rest ih => simp [hgh, ih]

lemma find?_eq_of_nodup_ids {l : List Job} {j : Job}
    (hn : (l.map Job.id).Nodup) (hj : j ∈ l) :
    l.find? (fun x => x.id = j.id) = some j := by
  induction l with
  | nil => simp at hj
  | cons a rest ih =>
    simp only [List.map_cons, List.nodup_cons] at hn
    by_cases h : a.id = j.id
    · have : a = j := by
        rcases List.mem_cons.mp hj with rfl | hj'
        · rfl
        · exact absurd (h ▸ List.mem_map_of_mem Job.id hj') hn.1
      simp [List.find?_cons, this]
    · have hj' : j ∈ rest := by
        rcases List.mem_cons.mp hj with rfl | hj'
        · exact absurd rfl h
        · exact hj'
      simp only [List.find?_cons]
      have : (decide (a.id = j.id)) = false := by simp [h]
      rw [this]
      exact ih hn.2 hj'

/-! ## `pendingJobs` under the orchestrator's writes -/

lemma mem_pendingJobs {wf : Nat} {db : DB} {j : Job} :
    j ∈ pendingJobs wf db ↔
      j ∈ db.jobs ∧ j.workflow_id = wf ∧ j.status = JStatus.pending := by
  simp [pendingJobs, List.mem_filter]

lemma pendingJobs_pushEvent (wf : Nat) (e : Event) (db : DB) :
    pendingJobs wf (pushEvent e db) = pendingJobs wf db := rfl

lemma pendingJobs_updateWorkflow (wf i : Nat) (f : Workflow → Workflow)
    (db : DB) : pendingJobs wf (updateWorkflow i f db) = pendingJobs wf db := rfl

lemma filter_update_list (i : Nat) (f : Job → Job) (p : Job → Bool)
    (hf : ∀ j, p (f j) = false) :
    ∀ l : List Job, (l.map fun j => if j.id = i then f j else j).filter p =
      (l.filter p).filter fun j => decide (j.id ≠ i) := by
  intro l
  induction l with
  | nil => rfl
  | cons a rest ih =>
    simp only [List.map_cons, List.filter_cons]
    by_cases ha : a.id = i
    · rw [if_pos ha, hf]
      by_cases hp : p a
      · simp [hp, ha, ih]
      · simp [hp, ih]
    · rw [if_neg ha]
      by_cases hp : p a
      · simp [hp, ha, ih]
      · simp [hp, ih]

lemma pendingJobs_updateJob_out (wf i : Nat) (f : Job → Job) (db : DB)
    (hf : ∀ j, (f j).status ≠ JStatus.pending) :
    pendingJobs wf (updateJob i f db) =
      (pendingJobs wf db).filter fun j => j.id ≠ i := by
  unfold pendingJobs
  simp only [jobs_updateJob]
  exact filter_update_list i f _ (fun j => by simp [hf j]) db.jobs

lemma pendingJobs_filter_sub {wf i : Nat} {db : DB} {q : Job} :
    q ∈ (pendingJobs wf db).filter (fun j => j.id ≠ i) → q ∈ pendingJobs wf db :=
  fun h => (List.mem_filter.mp h).1

/-! ## The write trace -/

/-- The priority a `running` write for workflow `wf` records, if `e` is one. -/
def runningPrio (wf : Nat) : Event → Option Nat
  | Event.jobStatus w _ p JStatus.running => if w = wf then some p else none
  | _ => none

/-- The priorities of the jobs of `wf` in the order they were set `running`. -/
def runningPrios (wf : Nat) (tr : List Event) : List Nat :=
  tr.filterMap (runningPrio wf)

@[simp] lemma runningPrios_nil (wf : Nat) : runningPrios wf [] = [] := rfl

@[simp] lemma runningPrios_cons_running (wf i p : Nat) (tr : List Event) :
    runningPrios wf (Event.jobStatus wf i p JStatus.running :: tr) =
      p :: runningPrios wf tr := by
  simp [runningPrios, List.filterMap_cons, runningPrio]

@[simp] lemma runningPrios_cons_completed (wf w i p : Nat) (tr : List Event) :
    runningPrios wf (Event.jobStatus w i p JStatus.completed :: tr) =
      runningPrios wf tr := by
  simp [runningPrios, List.filterMap_cons, runningPrio]

@[simp] lemma runningPrios_cons_failed (wf w i p : Nat) (tr : List Event) :
    runningPrios wf (Event.jobStatus w i p JStatus.failed :: tr) =
      runningPrios wf tr := by
  simp [runningPrios, List.filterMap_cons, runningPrio]

@[simp] lemma runningPrios_cons_pending (wf w i p : Nat) (tr : List Event) :
    runningPrios wf (Event.jobStatus w i p JStatus.pending :: tr) =
      runningPrios wf tr := by
  simp [runningPrios, List.filterMap_cons, runningPrio]

@[simp] lemma runningPrios_cons_wf (wf w : Nat) (s : WStatus) (tr : List Event) :
    runningPrios wf (Event.wfStatus w s :: tr) = runningPrios wf tr := by
  simp [runningPrios, List.filterMap_cons, runningPrio]

/-- `e` records a terminal status (`completed` or `failed`) for job `i` of
workflow `wf`. -/
def terminalFor (wf i : Nat) (e : Event) : Prop :=
  ∃ p, e = Event.jobStatus wf i p JStatus.completed ∨
       e = Event.jobStatus wf i p JStatus.failed

/-- The exact shapes a single-workflow dispatch chain can take: nothing (the
budget ran out before a dispatch), a completion mark, a failed job ending the
chain, or one job run to completion followed by a chain over strictly larger
priorities. -/
inductive RunShape (wf : Nat) : List Event → Prop where
  | stop : RunShape wf []
  | complete : RunShape wf [Event.wfStatus wf WStatus.completed]
  | fail (i p : Nat) :
      RunShape wf [Event.jobStatus wf i p JStatus.running,
                   Event.jobStatus wf i p JStatus.failed,
                   Event.wfStatus wf WStatus.failed]
  | step (i p : Nat) (rest : List Event) :
      RunShape wf rest →
      (∀ q ∈ runningPrios wf rest, p < q) →
      RunShape wf (Event.jobStatus wf i p JStatus.running ::
                   Event.jobStatus wf i p JStatus.completed :: rest)

lemma RunShape.chain {wf : Nat} {tr : List Event} (h : RunShape wf tr) :
    List.Chain' (· < ·) (runningPrios wf tr) := by
  induction h with
  | stop => simp
  | complete => simp
  | fail i p => simp
  | step i p rest _hr hq ih =>
    simp only [runningPrios_cons_running, runningPrios_cons_completed]
    exact List.chain'_cons'.mpr
      ⟨fun y hy => hq y (List.mem_of_mem_head? hy), ih⟩

lemma RunShape.prec {wf : Nat} {tr : List Event} (h : RunShape wf tr) :
    ∀ pre i p post,
      tr = pre ++ Event.jobStatus wf i p JStatus.running :: post →
      ∀ i' p', Event.jobStatus wf i' p' JStatus.running ∈ pre →
      ∃ e ∈ pre, terminalFor wf i' e := by
  induction h with
  | stop =>
    intro pre i p post hsplit
    exact absurd hsplit (by simp)
  | complete =>
    intro pre i p post hsplit i' p' hmem
    match pre, hsplit with
    | [], h => simp at h
    | a :: pre', h =>
      simp only [List.cons_append, List.cons.injEq] at h
      exact absurd h.2 (by simp)
  | fail i p =>
    intro pre i0 p0 post hsplit i' p' hmem
    match pre, hsplit with
    | [], h => simp at hmem
    | [a], h =>
      simp only [List.cons_append, List.nil_append, List.cons.injEq] at h
      exact absurd h.2.1 (by simp)
    | [a, b], h =>
      simp only [List.cons_append, List.nil_append, List.cons.injEq] at h
      exact absurd h.2.2.1 (by simp)
    | a :: b :: c :: pre', h =>
      simp only [List.cons_append, List.cons.injEq] at h
      exact absurd h.2.2.2 (by simp)
  | step i p rest _hr _hq ih =>
    intro pre i0 p0 post hsplit i' p' hmem
    match pre, hsplit with
    | [], h => simp at hmem
    | [a], h =>
      simp only [List.cons_append, List.nil_append, List.cons.injEq] at h
      exact absurd h.2.1 (by simp)
    | a :: b :: pre', h =>
      simp only [List.cons_append, List.cons.injEq] at h
      obtain ⟨ha, hb, hrest⟩ := h
      subst ha
      subst hb
      rcases List.mem_cons.mp hmem with hma | hmb
      · simp only [Event.jobStatus.injEq, true_and, and_true] at hma
        obtain ⟨rfl, rfl⟩ := hma
        exact ⟨Event.jobStatus wf i' p' JStatus.completed, by simp,
          ⟨p', Or.inl rfl⟩⟩
      · rcases List.mem_cons.mp hmb with hmb' | hmem'
        · simp at hmb'
        · obtain ⟨e, he, hte⟩ := ih pre' i0 p0 post hrest i' p' hmem'
          exact ⟨e, by simp [he], hte⟩

/-! ## The dispatch chain of one workflow -/

/-- The two status updates of a successful `processJob` preserve ids. -/
lemma ids_updateJob (i : Nat) (f : Job → Job) (db : DB)
    (hf : ∀ j, (f j).id = j.id) :
    (updateJob i f db).jobs.map Job.id = db.jobs.map Job.id := by
  simp only [jobs_updateJob]
  exact map_map_of _ Job.id (fun x => by by_cases h : x.id = i <;> simp [h, hf]) _

/-- The store after `processJob` marks job `j` `running` then `completed`
(the success path), before the recursive dispatch. -/
lemma run_step_pending (wf : Nat) (j : Job) (db : DB) (f1 f2 : Job → Job)
    (h1 : ∀ x, (f1 x).status ≠ JStatus.pending)
    (h2 : ∀ x, (f2 x).status ≠ JStatus.pending)
    (e1 e2 : Event) :
    pendingJobs wf
        (pushEvent e2 (updateJob j.id f2
          (pushEvent e1 (updateJob j.id f1 db)))) =
      ((pendingJobs wf db).filter fun x => x.id ≠ j.id).filter
        fun x => x.id ≠ j.id := by
  rw [pendingJobs_pushEvent, pendingJobs_updateJob_out _ _ _ _ h2,
    pendingJobs_pushEvent, pendingJobs_updateJob_out _ _ _ _ h1]

lemma mem_of_mem_filtered {wf : Nat} {db : DB} {x : Job} {i : Nat}
    (h : x ∈ ((pendingJobs wf db).filter fun y => y.id ≠ i).filter
      fun y => y.id ≠ i) :
    x ∈ pendingJobs wf db ∧ x.id ≠ i := by
  have h1 := List.mem_filter.mp h
  have h2 := List.mem_filter.mp h1.1
  exact ⟨h2.1, by simpa using h2.2⟩

/-- Main characterization: from a store whose job ids are distinct and whose
pending priorities for `wf` are distinct, a dispatch run appends to the trace
a chain of `RunShape` and every priority it sets `running` belonged to the
pending set. -/
lemma processNextJob_shape (exec : ExecOracle) :
    ∀ (fuel wf : Nat) (db : DB),
      (db.jobs.map Job.id).Nodup →
      ((pendingJobs wf db).map Job.priority).Nodup →
      ∃ Δ, (processNextJob exec fuel wf db).db.trace = db.trace ++ Δ ∧
        RunShape wf Δ ∧
        ∀ q ∈ runningPrios wf Δ, q ∈ (pendingJobs wf db).map Job.priority := by
  intro fuel
  induction fuel with
  | zero =>
    intro wf db _hids _hprios
    simp only [processNextJob]
    cases hsel : selectNextPending wf db with
    | none =>
      exact ⟨[Event.wfStatus wf WStatus.completed], by simp, RunShape.complete,
        by simp⟩
    | some j =>
      exact ⟨[], by simp, RunShape.stop, by simp⟩
  | succ fuel ih =>
    intro wf db hids hprios
    simp only [processNextJob]
    cases hsel : selectNextPending wf db with
    | none =>
      exact ⟨[Event.wfStatus wf WStatus.completed], by simp, RunShape.complete,
        by simp⟩
    | some j =>
      have hjp : j ∈ pendingJobs wf db := selectMin_mem hsel
      have hjdb : j ∈ db.jobs := (mem_pendingJobs.mp hjp).1
      have hprio : priorityOf db j.id = j.priority := by
        unfold priorityOf
        rw [find?_eq_of_nodup_ids hids hjdb]
      simp only [processJobCore, hprio, clock_pushEvent, clock_updateJob]
      cases hex : exec j.node_name wf (db.clock + 1) with
      | error m =>
        refine ⟨[Event.jobStatus wf j.id j.priority JStatus.running,
                 Event.jobStatus wf j.id j.priority JStatus.failed,
                 Event.wfStatus wf WStatus.failed], ?_, RunShape.fail j.id j.priority, ?_⟩
        · simp
        · intro q hq
          simp at hq
          exact hq ▸ List.mem_map_of_mem Job.priority hjp
      | ok r =>
        set f1 : Job → Job := fun x =>
          { x with status := JStatus.running, started_at := some db.clock } with hf1
        set f2 : Job → Job := fun x =>
          { x with
              status := JStatus.completed
              completed_at := some (db.clock + 1)
              result := some r } with hf2
        set db2 : DB :=
          pushEvent (Event.jobStatus wf j.id j.priority JStatus.completed)
            (updateJob j.id f2
              (pushEvent (Event.jobStatus wf j.id j.priority JStatus.running)
                (updateJob j.id f1 db))) with hdb2
        have hpend2 : pendingJobs wf db2 =
            ((pendingJobs wf db).filter fun x => x.id ≠ j.id).filter
              fun x => x.id ≠ j.id := by
          rw [hdb2]
          exact run_step_pending wf j db f1 f2 (by intro x; simp [hf1])
            (by intro x; simp [hf2]) _ _
        have hids2 : (db2.jobs.map Job.id).Nodup := by
          rw [hdb2]
          simp only [jobs_pushEvent]
          rw [ids_updateJob _ _ _ (fun x => by simp [hf2])]
          simp only [jobs_pushEvent]
          rw [ids_updateJob _ _ _ (fun x => by simp [hf1])]
          exact hids
        have hprios2 : ((pendingJobs wf db2).map Job.priority).Nodup := by
          rw [hpend2]
          exact List.Nodup.sublist
            (List.Sublist.map Job.priority
              ((List.filter_sublist _).trans (List.filter_sublist _))) hprios
        obtain ⟨Δ', htr', hshape', hsub'⟩ := ih wf db2 hids2 hprios2
        have htr2 : db2.trace = db.trace ++
            [Event.jobStatus wf j.id j.priority JStatus.running,
             Event.jobStatus wf j.id j.priority JStatus.completed] := by
          rw [hdb2]; simp
        have hstrict : ∀ q ∈ runningPrios wf Δ', j.priority < q := by
          intro q hq
          obtain ⟨x, hx, hxq⟩ := List.mem_map.mp (hsub' q hq)
          obtain ⟨hxp, hxne⟩ := mem_of_mem_filtered (hpend2 ▸ hx)
          have hle : j.priority ≤ x.priority := selectMin_le hsel x hxp
          have hne : x.priority ≠ j.priority := by
            intro heq
            exact hxne (congrArg Job.id
              (List.inj_on_of_nodup_map hprios hxp hjp heq))
          omega
        refine ⟨Event.jobStatus wf j.id j.priority JStatus.running ::
                Event.jobStatus wf j.id j.priority JStatus.completed :: Δ',
          ?_, RunShape.step j.id j.priority Δ' hshape' hstrict, ?_⟩
        · rw [htr', htr2]
          simp
        · intro q hq
          simp only [runningPrios_cons_running, runningPrios_cons_completed,
            List.mem_cons] at hq
          rcases hq with rfl | hq
          · exact List.mem_map_of_mem Job.priority hjp
          · obtain ⟨x, hx, hxq⟩ := List.mem_map.mp (hsub' q hq)
            exact hxq ▸ List.mem_map_of_mem Job.priority
              (mem_of_mem_filtered (hpend2 ▸ hx)).1

/-! ## Concrete fixtures (used by witnesses) -/

/-- A queued workflow row, as `queueWorkflow` leaves it. -/
def wfRow : Workflow :=
  { id := 0, name := "test", status := WStatus.queued, property_id := 7,
    metadata := "test", created_at := 0, updated_at := 0, completed_at := none }

/-- A pending job row of workflow `0`. -/
def jobRow (i prio : Nat) (n : String) : Job :=
  { id := i, workflow_id := 0, node_name := n, status := JStatus.pending,
    priority := prio, created_at := 0, started_at := none, completed_at := none,
    result := none, error := none }

/-- A store holding workflow `0` with two pending jobs at priorities 1, 2. -/
def dbW : DB :=
  { workflows := [wfRow], jobs := [jobRow 0 1 "a", jobRow 1 2 "b"],
    nextWorkflowId := 1, nextJobId := 2, clock := 0, trace := [] }

/-- A store holding workflow `0` with no jobs yet. -/
def dbQ : DB :=
  { workflows := [{ wfRow with status := WStatus.pending }], jobs := [],
    nextWorkflowId := 1, nextJobId := 0, clock := 0, trace := [] }

/-! ## C1: jobs reach `running` in strictly ascending priority order -/

/-- **C1.** In any dispatch run of `processNextJob` over a store with
distinct job ids and distinct pending priorities for the workflow, the trace
grows by a chain in which (a) the priorities of the `running` writes for the
workflow are strictly increasing in write order, and (b) before any job's
`running` write, every job whose `running` write already happened has a
terminal (`completed`/`failed`) write already in the trace — job k+1 starts
only after job k terminated, one at a time. -/
theorem jobs_run_in_ascending_priority_order (exec : ExecOracle)
    (fuel wf : Nat) (db : DB)
    (hids : (db.jobs.map Job.id).Nodup)
    (hprios : ((pendingJobs wf db).map Job.priority).Nodup) :
    ∃ Δ, (processNextJob exec fuel wf db).db.trace = db.trace ++ Δ ∧
      List.Chain' (· < ·) (runningPrios wf Δ) ∧
      ∀ pre i p post,
        Δ = pre ++ Event.jobStatus wf i p JStatus.running :: post →
        ∀ i' p', Event.jobStatus wf i' p' JStatus.running ∈ pre →
        ∃ e ∈ pre, terminalFor wf i' e := by
  obtain ⟨Δ, htr, hshape, _⟩ := processNextJob_shape exec fuel wf db hids hprios
  exact ⟨Δ, htr, hshape.chain, hshape.prec⟩

/-- C1 at a concrete input: the two-job store `dbW`, shipped `executeNode`. -/
theorem jobs_run_in_ascending_priority_order_witness :
    ∃ Δ, (processNextJob executeNode 3 0 dbW).db.trace = dbW.trace ++ Δ ∧
      List.Chain' (· < ·) (runningPrios 0 Δ) ∧
      ∀ pre i p post,
        Δ = pre ++ Event.jobStatus 0 i p JStatus.running :: post →
        ∀ i' p', Event.jobStatus 0 i' p' JStatus.running ∈ pre →
        ∃ e ∈ pre, terminalFor 0 i' e :=
  jobs_run_in_ascending_priority_order executeNode 3 0 dbW (by decide) (by decide)

/-! ## C2: a failing step halts the workflow -/

/-- **C2.** When the step-execution unit fails with message `m` for the
dispatched job, `processJob` re-raises `m` to the queue (`err`), appends
exactly `running`/`failed`/workflow-`failed` writes to the trace (so nothing
further is dispatched), marks the job row `failed` with `error = m` (non-empty)
and `completed_at` set, marks the owning workflow row `failed`, and leaves
every other job row — in particular every subsequent pending job — unchanged. -/
theorem failed_step_fails_job_and_workflow (exec : ExecOracle) (fuel : Nat)
    (msg : JobMsg) (db : DB) (m : String)
    (hfail : exec msg.nodeName msg.workflowId (db.clock + 1) = Except.error m)
    (hm : m ≠ "") :
    (processJob exec fuel msg db).err = some m ∧
    (processJob exec fuel msg db).db.trace = db.trace ++
      [Event.jobStatus msg.workflowId msg.jobId (priorityOf db msg.jobId)
         JStatus.running,
       Event.jobStatus msg.workflowId msg.jobId (priorityOf db msg.jobId)
         JStatus.failed,
       Event.wfStatus msg.workflowId WStatus.failed] ∧
    (∀ j ∈ (processJob exec fuel msg db).db.jobs, j.id = msg.jobId →
      j.status = JStatus.failed ∧ j.error = some m ∧ j.error ≠ some "" ∧
      j.completed_at ≠ none) ∧
    (∀ w ∈ (processJob exec fuel msg db).db.workflows, w.id = msg.workflowId →
      w.status = WStatus.failed) ∧
    (∀ j ∈ db.jobs, j.id ≠ msg.jobId → j ∈ (processJob exec fuel msg db).db.jobs) := by
  unfold processJob
  simp only [processJobCore, clock_pushEvent, clock_updateJob, hfail]
  refine ⟨?_, ?_, ?_, ?_, ?_⟩
  · first | rfl | trivial
  · simp
  · intro j hj hid
    simp only [jobs_pushEvent, jobs_updateJob, jobs_updateWorkflow,
      workflows_pushEvent, List.map_map, List.mem_map, Function.comp] at hj
    obtain ⟨x, _hx, rfl⟩ := hj
    by_cases h : x.id = msg.jobId
    · simp [h, hm]
    · simp [h] at hid
  · intro w hw hid
    simp only [workflows_pushEvent, workflows_updateJob, workflows_updateWorkflow,
      List.mem_map] at hw
    obtain ⟨x, _hx, rfl⟩ := hw
    by_cases h : x.id = msg.workflowId
    · simp [h]
    · simp [h] at hid
  · intro j hj hid
    simp only [jobs_pushEvent, jobs_updateJob, jobs_updateWorkflow,
      workflows_pushEvent, List.map_map, List.mem_map, Function.comp]
    exact ⟨j, hj, by simp [hid]⟩

/-- C2 at a concrete input: an oracle that always throws `"boom"`, run on the
two-job store `dbW` against its first job. -/
theorem failed_step_fails_job_and_workflow_witness :
    ((processJob (fun _ _ _ => Except.error "boom") 3 ⟨0, 0, "a"⟩ dbW).err =
      some "boom") ∧
    (processJob (fun _ _ _ => Except.error "boom") 3 ⟨0, 0, "a"⟩ dbW).db.trace =
      dbW.trace ++
      [Event.jobStatus 0 0 (priorityOf dbW 0) JStatus.running,
       Event.jobStatus 0 0 (priorityOf dbW 0) JStatus.failed,
       Event.wfStatus 0 WStatus.failed] ∧
    (∀ j ∈ (processJob (fun _ _ _ => Except.error "boom") 3 ⟨0, 0, "a"⟩ dbW).db.jobs,
      j.id = 0 →
      j.status = JStatus.failed ∧ j.error = some "boom" ∧ j.error ≠ some "" ∧
      j.completed_at ≠ none) ∧
    (∀ w ∈ (processJob (fun _ _ _ => Except.error "boom") 3 ⟨0, 0, "a"⟩ dbW).db.workflows,
      w.id = 0 → w.status = WStatus.failed) ∧
    (∀ j ∈ dbW.jobs, j.id ≠ 0 →
      j ∈ (processJob (fun _ _ _ => Except.error "boom") 3 ⟨0, 0, "a"⟩ dbW).db.jobs) :=
  failed_step_fails_job_and_workflow (fun _ _ _ => Except.error "boom") 3
    ⟨0, 0, "a"⟩ dbW "boom" rfl (by decide)

/-! ## C5: the execution-plan resolver and its fallback -/

/-- **C5 (counterexample to the claim as stated).** `'toString'` is an
unrecognized workflow-type label (neither `full_listing` nor `test`), yet
the resolver does not return the fallback plan `['test_node']` — the lookup
finds the inherited `Object.prototype.toString` (a function of arity 0), a
truthy value, so `||` never falls back. -/
theorem getExecutionPlan_fallback_cex :
    getExecutionPlan "toString" = PlanVal.protoFun 0 ∧
    getExecutionPlan "toString" ≠ PlanVal.arr ["test_node"] ∧
    getExecutionPlan "constructor" = PlanVal.protoFun 1 ∧
    getExecutionPlan "__proto__" = PlanVal.protoObj := by
  decide

/-- No inherited `Object.prototype` value is a plan array. -/
lemma protoProps_not_arr : ∀ q ∈ protoProps, ∀ steps : List String,
    q.2 ≠ PlanVal.arr steps := by
  intro q hq steps
  fin_cases hq <;> simp

/-- **C5 (amended).** `getExecutionPlan` is a pure total deterministic Lean
function; every plan array it returns is non-empty; every unrecognized label
that does not name an `Object.prototype` property yields the fixed fallback
plan `["test_node"]`; a label naming an `Object.prototype` property yields
that inherited (non-plan) value instead and never falls back. -/
theorem getExecutionPlan_prototype_chain_fallback (s : String) :
    (∀ steps, getExecutionPlan s = PlanVal.arr steps → steps ≠ []) ∧
    (s ≠ "full_listing" → s ≠ "test" →
      protoProps.find? (fun p => p.1 = s) = none →
      getExecutionPlan s = PlanVal.arr ["test_node"]) ∧
    (∀ v, s ≠ "full_listing" → s ≠ "test" →
      protoProps.find? (fun p => p.1 = s) = some v →
      getExecutionPlan s = v.2) := by
  by_cases h1 : s = "full_listing"
  · subst h1
    refine ⟨?_, ?_, ?_⟩
    · intro steps hs
      simp [getExecutionPlan] at hs
      simp [← hs]
    · intro h
      exact absurd rfl h
    · intro v h
      exact absurd rfl h
  · by_cases h2 : s = "test"
    · subst h2
      refine ⟨?_, ?_, ?_⟩
      · intro steps hs
        simp [getExecutionPlan] at hs
        simp [← hs]
      · intro _ h
        exact absurd rfl h
      · intro v _ h
        exact absurd rfl h
    · have hplanEq : getExecutionPlan s =
          match protoProps.find? (fun p => p.1 = s) with
          | some p => p.2
          | none => PlanVal.arr ["test_node"] := by
        simp [getExecutionPlan, h1, h2]
      refine ⟨?_, ?_, ?_⟩
      · intro steps hs
        rw [hplanEq] at hs
        cases hf : protoProps.find? (fun p => p.1 = s) with
        | none =>
          rw [hf] at hs
          simp at hs
          simp [← hs]
        | some p =>
          rw [hf] at hs
          exact absurd hs (protoProps_not_arr p (List.mem_of_find?_eq_some hf) steps)
      · intro _ _ hf
        rw [hplanEq, hf]
      · intro v _ _ hf
        rw [hplanEq, hf]

/-! ## C9: `getWorkflowStatus` -/

/-- **C9.** `getWorkflowStatus` fails with NotFound exactly when the
workflow row is absent; otherwise it returns the workflow row together with
a permutation of its job rows sorted by ascending priority; and it leaves
the store unchanged (read-only). -/
theorem getWorkflowStatus_spec (wf : Nat) (db : DB) :
    (selectWorkflow wf db = none →
      getWorkflowStatus wf db = (Except.error (notFoundMsg wf), db)) ∧
    (∀ w, selectWorkflow wf db = some w →
      ∃ js, getWorkflowStatus wf db = (Except.ok (w, js), db) ∧
        js.Perm (jobsOf wf db) ∧ js.Sorted jobLE) ∧
    (getWorkflowStatus wf db).2 = db := by
  refine ⟨?_, ?_, ?_⟩
  · intro h
    unfold getWorkflowStatus
    rw [h]
  · intro w h
    unfold getWorkflowStatus
    rw [h]
    exact ⟨(jobsOf wf db).insertionSort jobLE, rfl,
      List.perm_insertionSort jobLE _, List.sorted_insertionSort jobLE _⟩
  · unfold getWorkflowStatus
    cases h : selectWorkflow wf db <;> rfl

/-! ## C3: an all-success run completes the workflow -/

@[simp] lemma selectWorkflow_pushEvent (wf : Nat) (e : Event) (db : DB) :
    selectWorkflow wf (pushEvent e db) = selectWorkflow wf db := rfl

@[simp] lemma selectWorkflow_updateJob (wf i : Nat) (f : Job → Job) (db : DB) :
    selectWorkflow wf (updateJob i f db) = selectWorkflow wf db := rfl

/-- `SELECT` after a self-`UPDATE` that preserves the id column. -/
lemma selectWorkflow_updateWorkflow (wf i : Nat) (g : Workflow → Workflow)
    (db : DB) (hg : ∀ w, (g w).id = w.id) :
    selectWorkflow wf (updateWorkflow i g db) =
      (selectWorkflow wf db).map fun w => if w.id = i then g w else w := by
  unfold selectWorkflow
  simp only [workflows_updateWorkflow]
  exact find?_map_pres _ _
    (fun a => by by_cases h : a.id = i <;> simp [h, hg]) _

lemma selectWorkflow_completeWorkflow (wf : Nat) (db : DB) :
    selectWorkflow wf (completeWorkflow wf db) =
      (selectWorkflow wf db).map fun w =>
        if w.id = wf then
          { w with
              status := WStatus.completed
              completed_at := some db.clock
              updated_at := db.clock }
        else w := by
  unfold completeWorkflow
  rw [selectWorkflow_pushEvent]
  exact selectWorkflow_updateWorkflow wf wf _ db (fun w => rfl)

lemma selectWorkflow_setQueued (wf : Nat) (db : DB) :
    selectWorkflow wf (setQueued wf db) =
      (selectWorkflow wf db).map fun w =>
        if w.id = wf then
          { w with status := WStatus.queued, updated_at := db.clock }
        else w := by
  unfold setQueued
  rw [selectWorkflow_pushEvent]
  exact selectWorkflow_updateWorkflow wf wf _ db (fun w => rfl)

/-- **C3.** With a step-execution unit that always succeeds (the claim's
"every Job completes successfully"), a dispatch run with budget at least the
number of pending jobs drains them all, finds no pending job and calls
`completeWorkflow`: the workflow row ends with status `completed` and a
non-null `completed_at`. -/
theorem all_success_run_completes_workflow (exec : ExecOracle)
    (hok : ∀ n w c, ∃ r, exec n w c = Except.ok r) :
    ∀ (fuel wf : Nat) (db : DB), (pendingJobs wf db).length ≤ fuel →
      ∀ w0, selectWorkflow wf db = some w0 →
      ∃ w', selectWorkflow wf (processNextJob exec fuel wf db).db = some w' ∧
        w'.status = WStatus.completed ∧ w'.completed_at ≠ none := by
  intro fuel
  induction fuel with
  | zero =>
    intro wf db hlen w0 hw0
    have hnil : pendingJobs wf db = [] :=
      List.eq_nil_of_length_eq_zero (Nat.le_zero.mp hlen)
    have hsel : selectNextPending wf db = none := by
      unfold selectNextPending
      rw [hnil]
      rfl
    simp only [processNextJob, hsel]
    rw [selectWorkflow_completeWorkflow, hw0]
    have hid : w0.id = wf := by
      have := List.find?_some hw0
      simpa using this
    refine ⟨_, rfl, ?_, ?_⟩ <;> simp [hid]
  | succ fuel ih =>
    intro wf db hlen w0 hw0
    simp only [processNextJob]
    cases hsel : selectNextPending wf db with
    | none =>
      rw [selectWorkflow_completeWorkflow, hw0]
      have hid : w0.id = wf := by
        have := List.find?_some hw0
        simpa using this
      refine ⟨_, rfl, ?_, ?_⟩ <;> simp [hid]
    | some j =>
      have hjp : j ∈ pendingJobs wf db := selectMin_mem hsel
      simp only [processJobCore, clock_pushEvent, clock_updateJob]
      obtain ⟨r, hr⟩ := hok j.node_name wf (db.clock + 1)
      rw [hr]
      set f1 : Job → Job := fun x =>
        { x with status := JStatus.running, started_at := some db.clock } with hf1
      set f2 : Job → Job := fun x =>
        { x with
            status := JStatus.completed
            completed_at := some (db.clock + 1)
            result := some r } with hf2
      set db2 : DB :=
        pushEvent (Event.jobStatus wf j.id (priorityOf db j.id) JStatus.completed)
          (updateJob j.id f2
            (pushEvent (Event.jobStatus wf j.id (priorityOf db j.id) JStatus.running)
              (updateJob j.id f1 db))) with hdb2
      have hpend2 : pendingJobs wf db2 =
          ((pendingJobs wf db).filter fun x => x.id ≠ j.id).filter
            fun x => x.id ≠ j.id := by
        rw [hdb2]
        exact run_step_pending wf j db f1 f2 (by intro x; simp [hf1])
          (by intro x; simp [hf2]) _ _
      have hlt : (pendingJobs wf db2).length ≤ fuel := by
        rw [hpend2]
        have h1 : ((pendingJobs wf db).filter fun x => x.id ≠ j.id).length <
            (pendingJobs wf db).length :=
          List.length_filter_lt_length_iff_exists.mpr ⟨j, hjp, by simp⟩
        have h2 := List.length_filter_le (fun x => decide (x.id ≠ j.id))
          ((pendingJobs wf db).filter fun x => x.id ≠ j.id)
        omega
      have hw2 : selectWorkflow wf db2 = some w0 := by
        rw [hdb2]
        simpa using hw0
      exact ih wf db2 hlt w0 hw2

/-- C3 at a concrete input: `executeNode` on the two-job store `dbW`. -/
theorem all_success_run_completes_workflow_witness :
    ∃ w', selectWorkflow 0 (processNextJob executeNode 2 0 dbW).db = some w' ∧
      w'.status = WStatus.completed ∧ w'.completed_at ≠ none :=
  all_success_run_completes_workflow executeNode
    (fun n _ c => ⟨{ nodeName := n, status := "success", timestamp := c }, rfl⟩)
    2 0 dbW (by decide) wfRow (by decide)

/-! ## The insertion loop -/

/-- On an array plan the loop never sees `undefined`: running it over the
whole array equals the structural `insertJobs`, with no error. -/
lemma insertLoop_arr (wfId : Nat) (steps : List String) :
    ∀ (suffix : List String) (i : Nat) (db : DB), steps.drop i = suffix →
      insertLoop wfId (PlanVal.arr steps) suffix.length i db =
        (insertJobs wfId suffix (i + 1) db, none) := by
  intro suffix
  induction suffix with
  | nil => intro i db _h; rfl
  | cons n rest ih =>
    intro i db hdrop
    have hget : steps.get? i = some n := by
      have h0 : (steps.drop i).get? 0 = some n := by rw [hdrop]; rfl
      rw [List.get?_drop] at h0
      simpa using h0
    have hdrop2 : steps.drop (i + 1) = rest := by
      have h1 : (steps.drop i).drop 1 = rest := by rw [hdrop]; rfl
      rw [List.drop_drop] at h1
      simpa [Nat.add_comm] using h1
    show insertLoop wfId (PlanVal.arr steps) (rest.length + 1) i db = _
    simp only [insertLoop, planIdx, hget]
    rw [ih (i + 1) (insertJob wfId n (i + 1) db) hdrop2]
    rfl

lemma insertLoop_arr_zero (wfId : Nat) (steps : List String) (db : DB) :
    insertLoop wfId (PlanVal.arr steps) steps.length 0 db =
      (insertJobs wfId steps 1 db, none) := by
  have h := insertLoop_arr wfId steps steps 0 db (by simp)
  simpa using h

lemma insertLoop_workflows (wfId : Nat) (v : PlanVal) : ∀ (n i : Nat)
    (db : DB), (insertLoop wfId v n i db).1.workflows = db.workflows := by
  intro n
  induction n with
  | zero => intro i db; rfl
  | succ n ih =>
    intro i db
    simp only [insertLoop]
    cases hx : planIdx v i with
    | none => rfl
    | some nodeName =>
      rw [ih]
      rfl

lemma insertLoop_trace_jobEvents (wfId : Nat) (v : PlanVal) : ∀ (n i : Nat)
    (db : DB), ∃ Δ, (insertLoop wfId v n i db).1.trace = db.trace ++ Δ ∧
      ∀ e ∈ Δ, ∃ w j p, e = Event.jobStatus w j p JStatus.pending := by
  intro n
  induction n with
  | zero => intro i db; exact ⟨[], by simp [insertLoop], by simp⟩
  | succ n ih =>
    intro i db
    simp only [insertLoop]
    cases hx : planIdx v i with
    | none => exact ⟨[], by simp, by simp⟩
    | some nodeName =>
      obtain ⟨Δ, htr, hΔ⟩ := ih (i + 1) (insertJob wfId nodeName (i + 1) db)
      refine ⟨Event.jobStatus wfId db.nextJobId (i + 1) JStatus.pending :: Δ,
        ?_, ?_⟩
      · rw [htr]
        show ((db.trace ++ [_]) ++ Δ) = _
        simp
      · intro e he
        rcases List.mem_cons.mp he with rfl | he'
        · exact ⟨wfId, db.nextJobId, i + 1, rfl⟩
        · exact hΔ e he'

/-! ## C6: no operation writes `pending` to an existing workflow row -/

/-- Every workflow row that is `pending` after the operation already existed
(as the same row, `pending` included) before it: the operation wrote no
`pending` status to any existing row. -/
def noNewPending (pre post : List Workflow) : Prop :=
  ∀ w ∈ post, w.status = WStatus.pending → w ∈ pre

lemma noNewPending_refl (l : List Workflow) : noNewPending l l :=
  fun _w hw _ => hw

lemma noNewPending_trans {a b c : List Workflow} (h1 : noNewPending a b)
    (h2 : noNewPending b c) : noNewPending a c :=
  fun w hw hp => h1 w (h2 w hw hp) hp

lemma noNewPending_update (i : Nat) (g : Workflow → Workflow)
    (l : List Workflow) (hg : ∀ w, (g w).status ≠ WStatus.pending) :
    noNewPending l (l.map fun w => if w.id = i then g w else w) := by
  intro w hw hp
  obtain ⟨x, hx, rfl⟩ := List.mem_map.mp hw
  by_cases h : x.id = i
  · rw [if_pos h] at hp
    exact absurd hp (hg x)
  · rwa [if_neg h]

lemma insertJobs_workflows : ∀ (plan : List String) (wf prio : Nat) (db : DB),
    (insertJobs wf plan prio db).workflows = db.workflows := by
  intro plan
  induction plan with
  | nil => intro wf prio db; rfl
  | cons n rest ih =>
    intro wf prio db
    show (insertJobs wf rest (prio + 1) (insertJob wf n prio db)).workflows = _
    rw [ih]
    rfl

lemma run_noNewPending (exec : ExecOracle) : ∀ (fuel wf : Nat) (db : DB),
    noNewPending db.workflows (processNextJob exec fuel wf db).db.workflows := by
  intro fuel
  induction fuel with
  | zero =>
    intro wf db
    simp only [processNextJob]
    cases hsel : selectNextPending wf db with
    | none =>
      rw [workflows_completeWorkflow]
      exact noNewPending_update wf _ db.workflows (fun w => by simp)
    | some j => exact noNewPending_refl _
  | succ fuel ih =>
    intro wf db
    simp only [processNextJob]
    cases hsel : selectNextPending wf db with
    | none =>
      rw [workflows_completeWorkflow]
      exact noNewPending_update wf _ db.workflows (fun w => by simp)
    | some j =>
      simp only [processJobCore, clock_pushEvent, clock_updateJob]
      cases hex : exec j.node_name wf (db.clock + 1) with
      | ok r =>
        have h := ih wf
          (pushEvent (Event.jobStatus wf j.id (priorityOf db j.id) JStatus.completed)
            (updateJob j.id
              (fun x => { x with
                  status := JStatus.completed
                  completed_at := some (db.clock + 1)
                  result := some r })
              (pushEvent (Event.jobStatus wf j.id (priorityOf db j.id) JStatus.running)
                (updateJob j.id
                  (fun x => { x with
                      status := JStatus.running
                      started_at := some db.clock }) db))))
        simpa using h
      | error m =>
        simp only [workflows_pushEvent, workflows_updateWorkflow,
          workflows_updateJob]
        exact noNewPending_update wf _ db.workflows (fun w => by simp)

/-- **C6.** Workflow status transitions are monotonic out of `pending`: none
of `queueWorkflow`, `processJob`, `completeWorkflow` ever stores status
`pending` on an existing workflow row, so after any of them every `pending`
row is one that was already `pending` — no workflow re-enters `pending`. -/
theorem no_workflow_reenters_pending (exec : ExecOracle) (fuel wf : Nat)
    (msg : JobMsg) (db : DB) :
    noNewPending db.workflows (queueWorkflow exec fuel wf db).db.workflows ∧
    noNewPending db.workflows (processJob exec fuel msg db).db.workflows ∧
    noNewPending db.workflows (completeWorkflow wf db).workflows := by
  refine ⟨?_, ?_, ?_⟩
  · unfold queueWorkflow
    cases hq : selectWorkflow wf db with
    | none => exact noNewPending_refl _
    | some w =>
      show noNewPending db.workflows
        (queueWorkflowBody exec fuel wf w db).db.workflows
      unfold queueWorkflowBody
      rcases hloop : insertLoop wf (getExecutionPlan w.name)
          (planLen (getExecutionPlan w.name)) 0 db with ⟨db1, e⟩
      have hwfs1 : db1.workflows = db.workflows := by
        have h := insertLoop_workflows wf (getExecutionPlan w.name)
          (planLen (getExecutionPlan w.name)) 0 db
        rw [hloop] at h
        exact h
      cases e with
      | none =>
        have hmid : noNewPending db.workflows (setQueued wf db1).workflows := by
          unfold setQueued
          simp only [workflows_pushEvent, workflows_updateWorkflow, hwfs1]
          exact noNewPending_update wf _ db.workflows (fun w' => by simp)
        exact noNewPending_trans hmid (run_noNewPending exec fuel wf _)
      | some m =>
        intro w' hw' _hp
        have hmem : w' ∈ db1.workflows := hw'
        rw [hwfs1] at hmem
        exact hmem
  · unfold processJob
    simp only [processJobCore, clock_pushEvent, clock_updateJob]
    cases hex : exec msg.nodeName msg.workflowId (db.clock + 1) with
    | ok r =>
      have h := run_noNewPending exec fuel msg.workflowId
        (pushEvent (Event.jobStatus msg.workflowId msg.jobId
            (priorityOf db msg.jobId) JStatus.completed)
          (updateJob msg.jobId
            (fun x => { x with
                status := JStatus.completed
                completed_at := some (db.clock + 1)
                result := some r })
            (pushEvent (Event.jobStatus msg.workflowId msg.jobId
                (priorityOf db msg.jobId) JStatus.running)
              (updateJob msg.jobId
                (fun x => { x with
                    status := JStatus.running
                    started_at := some db.clock }) db))))
      simpa using h
    | error m =>
      simp only [workflows_pushEvent, workflows_updateWorkflow,
        workflows_updateJob]
      exact noNewPending_update msg.workflowId _ db.workflows (fun w' => by simp)
  · rw [workflows_completeWorkflow]
    exact noNewPending_update wf _ db.workflows (fun w' => by simp)

/-! ## C7: the workflow status chain has no stored `running` state -/

lemma run_no_running_write (exec : ExecOracle) : ∀ (fuel wf : Nat) (db : DB),
    ∃ Δ, (processNextJob exec fuel wf db).db.trace = db.trace ++ Δ ∧
      ∀ w, Event.wfStatus w WStatus.running ∉ Δ := by
  intro fuel
  induction fuel with
  | zero =>
    intro wf db
    simp only [processNextJob]
    cases hsel : selectNextPending wf db with
    | none => exact ⟨[Event.wfStatus wf WStatus.completed], by simp, by simp⟩
    | some j => exact ⟨[], by simp, by simp⟩
  | succ fuel ih =>
    intro wf db
    simp only [processNextJob]
    cases hsel : selectNextPending wf db with
    | none => exact ⟨[Event.wfStatus wf WStatus.completed], by simp, by simp⟩
    | some j =>
      simp only [processJobCore, clock_pushEvent, clock_updateJob]
      cases hex : exec j.node_name wf (db.clock + 1) with
      | ok r =>
        obtain ⟨Δ', htr', hΔ'⟩ := ih wf
          (pushEvent (Event.jobStatus wf j.id (priorityOf db j.id) JStatus.completed)
            (updateJob j.id
              (fun x => { x with
                  status := JStatus.completed
                  completed_at := some (db.clock + 1)
                  result := some r })
              (pushEvent (Event.jobStatus wf j.id (priorityOf db j.id) JStatus.running)
                (updateJob j.id
                  (fun x => { x with
                      status := JStatus.running
                      started_at := some db.clock }) db))))
        refine ⟨Event.jobStatus wf j.id (priorityOf db j.id) JStatus.running ::
          Event.jobStatus wf j.id (priorityOf db j.id) JStatus.completed :: Δ',
          ?_, ?_⟩
        · rw [htr']
          simp
        · intro w
          simp [hΔ' w]
      | error m =>
        exact ⟨[Event.jobStatus wf j.id (priorityOf db j.id) JStatus.running,
                Event.jobStatus wf j.id (priorityOf db j.id) JStatus.failed,
                Event.wfStatus wf WStatus.failed], by simp, by simp⟩

/-- **C7 (amended).** A workflow's stored status chain is `pending → queued
→ {completed | failed}`: `createWorkflow` and everything it triggers never
store `running` on any workflow row — the "running" workflow state of the
spec is implicit only, so no workflow row holds status `running` before
turning `completed` or `failed`. -/
theorem workflow_chain_never_stores_running (exec : ExecOracle)
    (fuel pid : Nat) (ty : String) (db : DB) :
    ∃ Δ, (createWorkflow exec fuel pid ty db).db.trace = db.trace ++ Δ ∧
      ∀ w, Event.wfStatus w WStatus.running ∉ Δ := by
  unfold createWorkflow queueWorkflow
  cases hq : selectWorkflow db.nextWorkflowId (insertWorkflow ty pid db) with
  | none =>
    exact ⟨[Event.wfStatus db.nextWorkflowId WStatus.pending], by
      simp [insertWorkflow], by simp⟩
  | some w =>
    show ∃ Δ, (queueWorkflowBody exec fuel db.nextWorkflowId w
        (insertWorkflow ty pid db)).db.trace = db.trace ++ Δ ∧
      ∀ w', Event.wfStatus w' WStatus.running ∉ Δ
    unfold queueWorkflowBody
    obtain ⟨Δ1, htr1, hΔ1⟩ := insertLoop_trace_jobEvents db.nextWorkflowId
      (getExecutionPlan w.name) (planLen (getExecutionPlan w.name)) 0
      (insertWorkflow ty pid db)
    rcases hloop : insertLoop db.nextWorkflowId (getExecutionPlan w.name)
        (planLen (getExecutionPlan w.name)) 0 (insertWorkflow ty pid db) with
      ⟨db1, e⟩
    rw [hloop] at htr1
    have htr1b : db1.trace = (insertWorkflow ty pid db).trace ++ Δ1 := htr1
    cases e with
    | some m =>
      refine ⟨Event.wfStatus db.nextWorkflowId WStatus.pending :: Δ1, ?_, ?_⟩
      · show db1.trace = _
        rw [htr1b]
        show ((db.trace ++ [_]) ++ Δ1) = _
        simp
      · intro w' hmem
        rcases List.mem_cons.mp hmem with h | hmem2
        · simp at h
        · obtain ⟨w2, i2, p2, heq⟩ := hΔ1 _ hmem2
          simp at heq
    | none =>
      obtain ⟨Δ2, htr2, hΔ2⟩ := run_no_running_write exec fuel
        db.nextWorkflowId (setQueued db.nextWorkflowId db1)
      refine ⟨Event.wfStatus db.nextWorkflowId WStatus.pending :: Δ1 ++
        (Event.wfStatus db.nextWorkflowId WStatus.queued :: Δ2), ?_, ?_⟩
      · rw [htr2]
        show ((setQueued _ _).trace ++ Δ2) = _
        unfold setQueued
        rw [trace_pushEvent, trace_updateWorkflow, htr1b]
        show (((insertWorkflow ty pid db).trace ++ Δ1) ++ _) ++ Δ2 = _
        unfold insertWorkflow
        rw [trace_pushEvent]
        simp
      · intro w' hmem
        rcases List.mem_cons.mp hmem with h | hmem2
        · simp at h
        rcases List.mem_append.mp hmem2 with h | hmem3
        · obtain ⟨w2, i2, p2, heq⟩ := hΔ1 _ h
          simp at heq
        rcases List.mem_cons.mp hmem3 with h | h
        · simp at h
        · exact hΔ2 w' h

/-- **C7 (counterexample to the claim as stated).** A `test` workflow run
end to end reaches `completed`, yet no `running` status is ever stored on
the workflow row: the claim that a workflow's status is `running` at some
point before `completed` is false on the code. -/
theorem workflow_never_running_cex :
    (∃ w, selectWorkflow 0 (createWorkflow executeNode 2 7 "test" emptyDB).db =
      some w ∧ w.status = WStatus.completed ∧ w.completed_at ≠ none) ∧
    Event.wfStatus 0 WStatus.running ∉
      (createWorkflow executeNode 2 7 "test" emptyDB).db.trace := by
  decide

/-! ## C10: the shipped `executeNode` makes the failure branch unreachable -/

/-- **C10.** The placeholder `executeNode` always returns
`{ nodeName, status: 'success', timestamp }` for the given step name and
never throws; consequently a dispatch run with the shipped oracle writes no
`failed` status to any job or workflow row (the failure branch of
`processJob` is unreachable), and every job set `running` is immediately
marked `completed` by the very next write. -/
theorem executeNode_failure_branch_unreachable :
    (∀ n w c, executeNode n w c =
      Except.ok { nodeName := n, status := "success", timestamp := c }) ∧
    ∀ (fuel wf : Nat) (db : DB), ∃ Δ,
      (processNextJob executeNode fuel wf db).db.trace = db.trace ++ Δ ∧
      (∀ w i p, Event.jobStatus w i p JStatus.failed ∉ Δ) ∧
      (∀ w, Event.wfStatus w WStatus.failed ∉ Δ) ∧
      ∀ pre w i p post,
        Δ = pre ++ Event.jobStatus w i p JStatus.running :: post →
        post.head? = some (Event.jobStatus w i p JStatus.completed) := by
  refine ⟨fun n w c => rfl, ?_⟩
  intro fuel
  induction fuel with
  | zero =>
    intro wf db
    simp only [processNextJob]
    cases hsel : selectNextPending wf db with
    | none =>
      refine ⟨[Event.wfStatus wf WStatus.completed], by simp, by simp, by simp, ?_⟩
      intro pre w i p post hsplit
      match pre, hsplit with
      | [], h => simp at h
      | a :: pre', h =>
        simp only [List.cons_append, List.cons.injEq] at h
        exact absurd h.2 (by simp)
    | some j =>
      refine ⟨[], by simp, by simp, by simp, ?_⟩
      intro pre w i p post hsplit
      exact absurd hsplit (by simp)
  | succ fuel ih =>
    intro wf db
    simp only [processNextJob]
    cases hsel : selectNextPending wf db with
    | none =>
      refine ⟨[Event.wfStatus wf WStatus.completed], by simp, by simp, by simp, ?_⟩
      intro pre w i p post hsplit
      match pre, hsplit with
      | [], h => simp at h
      | a :: pre', h =>
        simp only [List.cons_append, List.cons.injEq] at h
        exact absurd h.2 (by simp)
    | some j =>
      simp only [processJobCore, executeNode, clock_pushEvent, clock_updateJob]
      obtain ⟨Δ', htr', hjf', hwf', hrun'⟩ := ih wf
        (pushEvent (Event.jobStatus wf j.id (priorityOf db j.id) JStatus.completed)
          (updateJob j.id
            (fun x => { x with
                status := JStatus.completed
                completed_at := some (db.clock + 1)
                result := some ⟨j.node_name, "success", db.clock + 1⟩ })
            (pushEvent (Event.jobStatus wf j.id (priorityOf db j.id) JStatus.running)
              (updateJob j.id
                (fun x => { x with
                    status := JStatus.running
                    started_at := some db.clock }) db))))
      refine ⟨Event.jobStatus wf j.id (priorityOf db j.id) JStatus.running ::
        Event.jobStatus wf j.id (priorityOf db j.id) JStatus.completed :: Δ',
        ?_, ?_, ?_, ?_⟩
      · rw [htr']
        simp
      · intro w i p
        simp [hjf' w i p]
      · intro w
        simp [hwf' w]
      · intro pre w i p post hsplit
        match pre, hsplit with
        | [], h =>
          simp only [List.nil_append, List.cons.injEq] at h
          obtain ⟨h1, h2⟩ := h
          simp only [Event.jobStatus.injEq] at h1
          obtain ⟨rfl, rfl, rfl, -⟩ := h1
          rw [← h2]
          rfl
        | [a], h =>
          simp only [List.cons_append, List.nil_append, List.cons.injEq] at h
          exact absurd h.2.1 (by simp)
        | a :: b :: pre', h =>
          simp only [List.cons_append, List.cons.injEq] at h
          exact hrun' pre' w i p post h.2.2

/-! ## C4: `createWorkflow` inserts exactly the plan's jobs -/

/-- The job row one `INSERT` of the `queueWorkflow` loop creates. -/
def mkJob (jid wf : Nat) (n : String) (prio clk : Nat) : Job :=
  { id := jid, workflow_id := wf, node_name := n, status := JStatus.pending,
    priority := prio, created_at := clk, started_at := none,
    completed_at := none, result := none, error := none }

/-- The rows the insertion loop appends, with consecutive ids, priorities
and clocks. -/
def newJobs : List String → Nat → Nat → Nat → Nat → List Job
  | [], _, _, _, _ => []
  | n :: rest, wf, prio, jid, clk =>
    mkJob jid wf n prio clk :: newJobs rest wf (prio + 1) (jid + 1) (clk + 1)

@[simp] lemma jobs_insertJob (wf : Nat) (n : String) (prio : Nat) (db : DB) :
    (insertJob wf n prio db).jobs =
      db.jobs ++ [mkJob db.nextJobId wf n prio db.clock] := rfl

@[simp] lemma nextJobId_insertJob (wf : Nat) (n : String) (prio : Nat)
    (db : DB) : (insertJob wf n prio db).nextJobId = db.nextJobId + 1 := rfl

@[simp] lemma clock_insertJob (wf : Nat) (n : String) (prio : Nat) (db : DB) :
    (insertJob wf n prio db).clock = db.clock + 1 := rfl

lemma insertJobs_jobs : ∀ (plan : List String) (wf prio : Nat) (db : DB),
    (insertJobs wf plan prio db).jobs =
      db.jobs ++ newJobs plan wf prio db.nextJobId db.clock := by
  intro plan
  induction plan with
  | nil => intro wf prio db; simp [insertJobs, newJobs]
  | cons n rest ih =>
    intro wf prio db
    show (insertJobs wf rest (prio + 1) (insertJob wf n prio db)).jobs = _
    rw [ih]
    simp [newJobs]

lemma length_newJobs : ∀ (plan : List String) (wf prio jid clk : Nat),
    (newJobs plan wf prio jid clk).length = plan.length := by
  intro plan
  induction plan with
  | nil => intro wf prio jid clk; rfl
  | cons n rest ih =>
    intro wf prio jid clk
    simp [newJobs, ih]

lemma newJobs_wfid : ∀ (plan : List String) (wf prio jid clk : Nat)
    (j : Job), j ∈ newJobs plan wf prio jid clk → j.workflow_id = wf := by
  intro plan
  induction plan with
  | nil => intro wf prio jid clk j hj; simp [newJobs] at hj
  | cons n rest ih =>
    intro wf prio jid clk j hj
    rcases List.mem_cons.mp hj with rfl | hj'
    · rfl
    · exact ih wf (prio + 1) (jid + 1) (clk + 1) j hj'

lemma newJobs_get? : ∀ (plan : List String) (i wf prio jid clk : Nat),
    i < plan.length →
    ∃ n, plan.get? i = some n ∧
      (newJobs plan wf prio jid clk).get? i =
        some (mkJob (jid + i) wf n (prio + i) (clk + i)) := by
  intro plan
  induction plan with
  | nil => intro i wf prio jid clk hi; simp at hi
  | cons n rest ih =>
    intro i wf prio jid clk hi
    cases i with
    | zero => exact ⟨n, rfl, by simp [newJobs]⟩
    | succ i =>
      obtain ⟨n', hn', hg⟩ := ih i wf (prio + 1) (jid + 1) (clk + 1)
        (by simpa using Nat.lt_of_succ_lt_succ hi)
      refine ⟨n', hn', ?_⟩
      show (newJobs (n :: rest) wf prio jid clk).get? (i + 1) = _
      rw [show newJobs (n :: rest) wf prio jid clk =
        mkJob jid wf n prio clk ::
          newJobs rest wf (prio + 1) (jid + 1) (clk + 1) from rfl]
      rw [List.get?_cons_succ, hg]
      have e1 : jid + 1 + i = jid + (i + 1) := by omega
      have e2 : prio + 1 + i = prio + (i + 1) := by omega
      have e3 : clk + 1 + i = clk + (i + 1) := by omega
      rw [e1, e2, e3]

@[simp] lemma workflows_insertJob (wf : Nat) (n : String) (prio : Nat)
    (db : DB) : (insertJob wf n prio db).workflows = db.workflows := rfl

@[simp] lemma jobsOf_setQueued (w wf : Nat) (db : DB) :
    jobsOf w (setQueued wf db) = jobsOf w db := rfl

/-- **C4.** `createWorkflow` first runs the insertion phase — exactly one
job row per plan step, `node_name` the i-th step, `priority = i + 1`, all
`pending`, then the workflow set `queued` — and only then dispatches via
`processNextJob`; and `queueWorkflow` on an id with no workflow row raises
NotFound and leaves the store untouched. -/
theorem createWorkflow_inserts_exactly_plan_jobs (exec : ExecOracle)
    (fuel pid : Nat) (ty : String) (steps : List String) (db : DB)
    (hplan : getExecutionPlan ty = PlanVal.arr steps)
    (hjobs : ∀ j ∈ db.jobs, j.workflow_id ≠ db.nextWorkflowId)
    (hwfs : ∀ w ∈ db.workflows, w.id ≠ db.nextWorkflowId) :
    (∃ db2, createWorkflow exec fuel pid ty db =
        processNextJob exec fuel db.nextWorkflowId db2 ∧
      (jobsOf db.nextWorkflowId db2).length = steps.length ∧
      (∀ i, i < steps.length →
        ∃ j, (jobsOf db.nextWorkflowId db2).get? i = some j ∧
          steps.get? i = some j.node_name ∧
          j.priority = i + 1 ∧ j.status = JStatus.pending) ∧
      ∃ w, selectWorkflow db.nextWorkflowId db2 = some w ∧
        w.status = WStatus.queued) ∧
    ∀ (wfId : Nat) (db0 : DB), selectWorkflow wfId db0 = none →
      queueWorkflow exec fuel wfId db0 = ⟨db0, some (notFoundMsg wfId)⟩ := by
  constructor
  · set wfId := db.nextWorkflowId with hwfId
    set newW : Workflow :=
      { id := wfId, name := ty, status := WStatus.pending, property_id := pid,
        metadata := ty, created_at := db.clock, updated_at := db.clock,
        completed_at := none } with hnewW
    have hsel1 : selectWorkflow wfId (insertWorkflow ty pid db) = some newW := by
      unfold selectWorkflow insertWorkflow
      show (db.workflows ++ [newW]).find? _ = _
      rw [find?_none_of _ (fun w hw => by simp [hwfs w hw]) [newW]]
      simp [hnewW]
    have hname : newW.name = ty := rfl
    refine ⟨setQueued wfId
      (insertJobs wfId steps 1 (insertWorkflow ty pid db)),
      ?_, ?_, ?_, ?_⟩
    · unfold createWorkflow queueWorkflow
      rw [hsel1]
      show queueWorkflowBody exec fuel wfId newW (insertWorkflow ty pid db) = _
      unfold queueWorkflowBody
      rw [hname, hplan]
      simp only [planLen]
      rw [insertLoop_arr_zero]
    · unfold jobsOf
      show ((insertJobs wfId steps 1
        (insertWorkflow ty pid db)).jobs.filter _).length = _
      rw [insertJobs_jobs]
      rw [List.filter_append]
      rw [List.filter_eq_nil_iff.mpr (fun j hj => by simp [hjobs j hj])]
      rw [List.filter_eq_self.mpr
        (fun j hj => by simp [newJobs_wfid _ _ _ _ _ j hj])]
      simp [length_newJobs]
    · intro i hi
      have hJ : jobsOf wfId (setQueued wfId
          (insertJobs wfId steps 1 (insertWorkflow ty pid db))) =
          newJobs steps wfId 1 db.nextJobId (db.clock + 1) := by
        unfold jobsOf
        show ((insertJobs wfId steps 1
          (insertWorkflow ty pid db)).jobs.filter _) = _
        rw [insertJobs_jobs]
        rw [List.filter_append]
        rw [List.filter_eq_nil_iff.mpr (fun j hj => by simp [hjobs j hj])]
        rw [List.filter_eq_self.mpr
          (fun j hj => by simp [newJobs_wfid _ _ _ _ _ j hj])]
        rfl
      obtain ⟨n, hn, hg⟩ := newJobs_get? steps i wfId 1
        db.nextJobId (db.clock + 1) hi
      refine ⟨mkJob (db.nextJobId + i) wfId n (1 + i) (db.clock + 1 + i),
        ?_, ?_, ?_, ?_⟩
      · rw [hJ, hg]
      · exact hn
      · show 1 + i = i + 1
        omega
      · rfl
    · refine ⟨{ newW with
          status := WStatus.queued
          updated_at := (insertJobs wfId steps 1
            (insertWorkflow ty pid db)).clock }, ?_, rfl⟩
      rw [selectWorkflow_setQueued]
      have : selectWorkflow wfId
          (insertJobs wfId steps 1 (insertWorkflow ty pid db)) =
          some newW := by
        unfold selectWorkflow
        rw [insertJobs_workflows]
        exact hsel1
      rw [this]
      simp [hnewW]
  · intro wfId db0 h
    unfold queueWorkflow
    rw [h]

/-- C4 at a concrete input: the empty store and the `test` type, whose plan
resolves to the array `["test_node"]`. -/
theorem createWorkflow_inserts_exactly_plan_jobs_witness :
    (∃ db2, createWorkflow executeNode 2 7 "test" emptyDB =
        processNextJob executeNode 2 emptyDB.nextWorkflowId db2 ∧
      (jobsOf emptyDB.nextWorkflowId db2).length =
        (["test_node"] : List String).length ∧
      (∀ i, i < (["test_node"] : List String).length →
        ∃ j, (jobsOf emptyDB.nextWorkflowId db2).get? i = some j ∧
          (["test_node"] : List String).get? i = some j.node_name ∧
          j.priority = i + 1 ∧ j.status = JStatus.pending) ∧
      ∃ w, selectWorkflow emptyDB.nextWorkflowId db2 = some w ∧
        w.status = WStatus.queued) ∧
    ∀ (wfId : Nat) (db0 : DB), selectWorkflow wfId db0 = none →
      queueWorkflow executeNode 2 wfId db0 = ⟨db0, some (notFoundMsg wfId)⟩ :=
  createWorkflow_inserts_exactly_plan_jobs executeNode 2 7 "test"
    ["test_node"] emptyDB (by decide)
    (by intro j hj; simp [emptyDB] at hj) (by intro w hw; simp [emptyDB] at hw)

/-- **C4 (counterexample to the claim as stated).** For the unrecognized
type `'toString'` no job row at all is inserted (the inherited function's
arity is 0), and for `'constructor'` (arity 1) the first `INSERT` reads
`executionPlan[0] = undefined` and throws the NOT NULL violation: the run
aborts with the error re-raised, zero job rows, and the workflow left
`pending`, never `queued` — not the exactly-N pending rows of the claim for
every type. -/
theorem createWorkflow_plan_jobs_cex :
    (createWorkflow executeNode 2 7 "toString" emptyDB).err = none ∧
    (jobsOf 0 (createWorkflow executeNode 2 7 "toString" emptyDB).db).length = 0 ∧
    (createWorkflow executeNode 2 7 "constructor" emptyDB).err = some notNullMsg ∧
    (jobsOf 0 (createWorkflow executeNode 2 7 "constructor" emptyDB).db).length = 0 ∧
    (∃ w, selectWorkflow 0 (createWorkflow executeNode 2 7 "constructor" emptyDB).db =
      some w ∧ w.status = WStatus.pending) := by
  decide

/-! ## C8: `queueWorkflow` is not idempotent -/

@[simp] lemma jobsOf_pushEvent (w : Nat) (e : Event) (db : DB) :
    jobsOf w (pushEvent e db) = jobsOf w db := rfl

@[simp] lemma jobsOf_updateWorkflow (w i : Nat) (f : Workflow → Workflow)
    (db : DB) : jobsOf w (updateWorkflow i f db) = jobsOf w db := rfl

@[simp] lemma jobsOf_completeWorkflow (w wf : Nat) (db : DB) :
    jobsOf w (completeWorkflow wf db) = jobsOf w db := rfl

lemma jobsOf_updateJob_length (w2 i : Nat) (f : Job → Job) (db : DB)
    (hf : ∀ j, (f j).workflow_id = j.workflow_id) :
    (jobsOf w2 (updateJob i f db)).length = (jobsOf w2 db).length := by
  unfold jobsOf
  simp only [jobs_updateJob]
  exact length_filter_map_of _ _
    (fun x => by by_cases h : x.id = i <;> simp [h, hf]) _

lemma run_jobs_count (exec : ExecOracle) : ∀ (fuel wf : Nat) (db : DB)
    (w2 : Nat),
    (jobsOf w2 (processNextJob exec fuel wf db).db).length =
      (jobsOf w2 db).length := by
  intro fuel
  induction fuel with
  | zero =>
    intro wf db w2
    simp only [processNextJob]
    cases hsel : selectNextPending wf db with
    | none => simp
    | some j => rfl
  | succ fuel ih =>
    intro wf db w2
    simp only [processNextJob]
    cases hsel : selectNextPending wf db with
    | none => simp
    | some j =>
      simp only [processJobCore, clock_pushEvent, clock_updateJob]
      cases hex : exec j.node_name wf (db.clock + 1) with
      | ok r =>
        rw [ih]
        simp only [jobsOf_pushEvent]
        rw [jobsOf_updateJob_length]
        · simp only [jobsOf_pushEvent]
          rw [jobsOf_updateJob_length]
          intro x
          rfl
        · intro x
          rfl
      | error m =>
        simp only [jobsOf_pushEvent, jobsOf_updateWorkflow]
        rw [jobsOf_updateJob_length]
        · simp only [jobsOf_pushEvent]
          rw [jobsOf_updateJob_length]
          intro x
          rfl
        · intro x
          rfl

lemma selectWorkflow_completeWorkflow2 (wfId wf : Nat) (db : DB) :
    selectWorkflow wfId (completeWorkflow wf db) =
      (selectWorkflow wfId db).map fun w =>
        if w.id = wf then
          { w with
              status := WStatus.completed
              completed_at := some db.clock
              updated_at := db.clock }
        else w := by
  unfold completeWorkflow
  rw [selectWorkflow_pushEvent]
  exact selectWorkflow_updateWorkflow wfId wf _ db (fun w => rfl)

lemma run_keeps_name (exec : ExecOracle) : ∀ (fuel wf : Nat) (db : DB)
    (wfId : Nat) (w : Workflow), selectWorkflow wfId db = some w →
    ∃ w', selectWorkflow wfId (processNextJob exec fuel wf db).db = some w' ∧
      w'.name = w.name := by
  intro fuel
  induction fuel with
  | zero =>
    intro wf db wfId w hw
    simp only [processNextJob]
    cases hsel : selectNextPending wf db with
    | none =>
      rw [selectWorkflow_completeWorkflow2, hw]
      refine ⟨_, rfl, ?_⟩
      by_cases h : w.id = wf <;> simp [h]
    | some j => exact ⟨w, hw, rfl⟩
  | succ fuel ih =>
    intro wf db wfId w hw
    simp only [processNextJob]
    cases hsel : selectNextPending wf db with
    | none =>
      rw [selectWorkflow_completeWorkflow2, hw]
      refine ⟨_, rfl, ?_⟩
      by_cases h : w.id = wf <;> simp [h]
    | some j =>
      simp only [processJobCore, clock_pushEvent, clock_updateJob]
      cases hex : exec j.node_name wf (db.clock + 1) with
      | ok r =>
        apply ih
        simpa using hw
      | error m =>
        rw [selectWorkflow_pushEvent]
        rw [selectWorkflow_updateWorkflow]
        case hg => intro w'; rfl
        have : selectWorkflow wfId
            (pushEvent (Event.jobStatus wf j.id (priorityOf db j.id) JStatus.failed)
              (updateJob j.id
                (fun x => { x with
                    status := JStatus.failed
                    completed_at := some (db.clock + 1)
                    error := some m })
                (pushEvent (Event.jobStatus wf j.id (priorityOf db j.id)
                    JStatus.running)
                  (updateJob j.id
                    (fun x => { x with
                        status := JStatus.running
                        started_at := some db.clock }) db)))) = some w := by
          simpa using hw
        rw [this]
        refine ⟨_, rfl, ?_⟩
        by_cases h : w.id = wf <;> simp [h]

lemma jobsOf_insertJobs_self (wf : Nat) (plan : List String) (prio : Nat)
    (db : DB) :
    jobsOf wf (insertJobs wf plan prio db) =
      jobsOf wf db ++ newJobs plan wf prio db.nextJobId db.clock := by
  unfold jobsOf
  rw [insertJobs_jobs, List.filter_append]
  congr 1
  exact List.filter_eq_self.mpr
    (fun j hj => by simp [newJobs_wfid _ _ _ _ _ j hj])

lemma queueWorkflow_adds (exec : ExecOracle) (fuel wf : Nat) (db : DB)
    (w : Workflow) (steps : List String) (h : selectWorkflow wf db = some w)
    (hplan : getExecutionPlan w.name = PlanVal.arr steps) :
    (jobsOf wf (queueWorkflow exec fuel wf db).db).length =
      (jobsOf wf db).length + steps.length ∧
    ∃ w', selectWorkflow wf (queueWorkflow exec fuel wf db).db = some w' ∧
      w'.name = w.name := by
  have heq : queueWorkflow exec fuel wf db =
      processNextJob exec fuel wf (setQueued wf (insertJobs wf steps 1 db)) := by
    unfold queueWorkflow
    rw [h]
    show queueWorkflowBody exec fuel wf w db = _
    unfold queueWorkflowBody
    rw [hplan]
    simp only [planLen]
    rw [insertLoop_arr_zero]
  rw [heq]
  have hmidjobs : (jobsOf wf (setQueued wf
      (insertJobs wf steps 1 db))).length =
      (jobsOf wf db).length + steps.length := by
    rw [jobsOf_setQueued, jobsOf_insertJobs_self, List.length_append,
      length_newJobs]
  have hwid : w.id = wf := by
    have := List.find?_some h
    simpa using this
  have hmidsel : selectWorkflow wf (setQueued wf
      (insertJobs wf steps 1 db)) =
      some { w with
        status := WStatus.queued
        updated_at := (insertJobs wf steps 1 db).clock } := by
    rw [selectWorkflow_setQueued]
    have : selectWorkflow wf (insertJobs wf steps 1 db) = some w := by
      unfold selectWorkflow
      rw [insertJobs_workflows]
      exact h
    rw [this]
    simp [hwid]
  constructor
  · rw [run_jobs_count, hmidjobs]
  · obtain ⟨w', hw', hn'⟩ := run_keeps_name exec fuel wf _ wf _ hmidsel
    exact ⟨w', hw', hn'⟩

/-- **C8 (amended).** `queueWorkflow` is not idempotent and nothing guards
against a second call: for a workflow whose type resolves to a plan array of
length N, two calls on the same id insert 2×N job rows for that workflow. -/
theorem queueWorkflow_not_idempotent (exec : ExecOracle) (fuel wf : Nat)
    (db : DB) (w : Workflow) (steps : List String)
    (h : selectWorkflow wf db = some w)
    (hplan : getExecutionPlan w.name = PlanVal.arr steps) :
    (jobsOf wf (queueWorkflow exec fuel wf
        (queueWorkflow exec fuel wf db).db).db).length =
      (jobsOf wf db).length + 2 * steps.length := by
  obtain ⟨hlen1, w1, hw1, hname1⟩ :=
    queueWorkflow_adds exec fuel wf db w steps h hplan
  have hplan1 : getExecutionPlan w1.name = PlanVal.arr steps := by
    rw [hname1, hplan]
  obtain ⟨hlen2, -⟩ := queueWorkflow_adds exec fuel wf
    (queueWorkflow exec fuel wf db).db w1 steps hw1 hplan1
  rw [hlen2, hlen1]
  omega

/-- C8 at a concrete input: the one-workflow store `dbQ` (`test` plan,
length 1) holds 2 job rows for workflow 0 after two `queueWorkflow` calls. -/
theorem queueWorkflow_not_idempotent_witness :
    (jobsOf 0 (queueWorkflow executeNode 2 0
        (queueWorkflow executeNode 2 0 dbQ).db).db).length =
      (jobsOf 0 dbQ).length + 2 * (["test_node"] : List String).length :=
  queueWorkflow_not_idempotent executeNode 2 0 dbQ
    { wfRow with status := WStatus.pending } ["test_node"] (by decide)
    (by decide)

/-- A store holding workflow 0 whose type label is `toString`, with no
jobs. -/
def dbT : DB :=
  { workflows := [{ wfRow with name := "toString", status := WStatus.pending }],
    jobs := [], nextWorkflowId := 1, nextJobId := 0, clock := 0, trace := [] }

/-- **C8 (counterexample to the claim as stated).** For a workflow of type
`'toString'` two `queueWorkflow` calls insert no job row at all — the
resolver returns the inherited arity-0 function, not a plan, so the claimed
2×N duplication (N the plan length, ≥ 1 for every plan) does not happen. -/
theorem queueWorkflow_not_idempotent_cex :
    (jobsOf 0 dbT).length = 0 ∧
    (jobsOf 0 (queueWorkflow executeNode 2 0
        (queueWorkflow executeNode 2 0 dbT).db).db).length = 0 ∧
    getExecutionPlan "toString" ≠ PlanVal.arr ["test_node"] := by
  decide

end Empire
